import Mathlib

/-!
Shallow embedding of the probfindiff / pnfindiff core: kernel and operator
algebra, Gram-matrix construction, the unsymmetric collocation solver, stencil
generation, and scheme assembly and application.  Machine reals are embedded as
exact rationals.  Parts of the repository that are referenced by the code under
verification but whose files are not available (the `utils` modules, the
`probfindiff.collocation` and `probfindiff.stencil` modules) are modelled from
the specification; each such definition says so in its doc comment.
-/

namespace Probfindiff

/-- Kernels arising in this development are bivariate polynomials over ℚ,
represented by their coefficient table: entry `i`, `j` is the coefficient of
`x^i * y^j`.  The polynomial kernels used by the default scheme construction
(`kernel_zoo.polynomial` with coefficient vector `p`) live in this class, and
the class is closed under the differential operators the code applies. -/
abbrev BivPoly := List (List ℚ)

/-- Evaluation of a univariate coefficient list `c` at `y` (Horner form),
`∑ i, c_i * y^i`. -/
def evalList (c : List ℚ) (y : ℚ) : ℚ :=
  c.foldr (fun a acc => a + y * acc) 0

/-- Evaluation of a bivariate coefficient table at `(x, y)`. -/
def evalB (k : BivPoly) (x y : ℚ) : ℚ :=
  evalList (k.map fun row => evalList row y) x

/-- Formal derivative of a univariate coefficient list. -/
def derivList : List ℚ → List ℚ
  | [] => []
  | _ :: t => List.zipWith (fun n a => ((n + 1 : ℕ) : ℚ) * a) (List.range t.length) t

/-- Partial derivative of a bivariate coefficient table with respect to the
first argument `x`. -/
def derivX : BivPoly → BivPoly
  | [] => []
  | _ :: t =>
      List.zipWith (fun n row => row.map fun a => ((n + 1 : ℕ) : ℚ) * a)
        (List.range t.length) t

/-- Partial derivative of a bivariate coefficient table with respect to the
second argument `y`. -/
def derivY (k : BivPoly) : BivPoly :=
  k.map derivList

/-- Modelled from the spec: `kernel_zoo.polynomial` (the `utils/kernel_zoo`
module is not under `src/`), the polynomial kernel with coefficient vector `p`:
`k(x, y) = ∑ i, p_i * (x*y)^i`. -/
def polynomialKernel (p : List ℚ) : BivPoly :=
  List.zipWith (fun i a => List.replicate i 0 ++ [a]) (List.range p.length) p

/-- Translation of `probfindiff._toplevel_api._default_kernel`: the polynomial
kernel with coefficient vector `ones(min_order)`. -/
def _default_kernel (min_order : ℕ) : BivPoly :=
  polynomialKernel (List.replicate min_order 1)

/-- A linear differential operator, as the spec describes it: a map from
kernels to kernels taking the argument index (0 or 1) it differentiates
with respect to. -/
def Op : Type := ℕ → BivPoly → BivPoly

/-- Modelled from the spec: `autodiff.derivative` (the `utils/autodiff` module
is not under `src/`), the order-1 operator "derivative along the single input
dimension" of the specified argument. -/
def autodiff.derivative : Op :=
  fun argnums k => if argnums = 0 then derivX k else derivY k

/-- Modelled from the spec: `autodiff.compose`; composing operator `A` with `B`
applies `B` and then differentiates once more via `A`, at the same argument
index. -/
def autodiff.compose (A B : Op) : Op :=
  fun argnums k => A argnums (B argnums k)

/-- Python's `functools.reduce` with no initial value: `none` on the empty
list (where CPython raises `TypeError: reduce() of empty iterable with no
initial value`), otherwise a left fold starting from the head. -/
def reduceOpt {α : Type} (f : α → α → α) : List α → Option α
  | [] => none
  | x :: t => some (t.foldl f x)

/-- The operator built by `from_grid` and by `coefficients.derivative_higher`:
`functools.reduce(autodiff.compose, [autodiff.derivative] * m)`. -/
def mkL (m : ℕ) : Option Op :=
  reduceOpt autodiff.compose (List.replicate m autodiff.derivative)

/-- The dense linear solve used by the collocation solver
(`jnp.linalg.solve`), embedded by the adjugate formula; for an invertible
matrix it returns the unique solution of `A * w = b`. -/
def solveLin {n : ℕ} (A : Matrix (Fin n) (Fin n) ℚ) (b : Fin n → ℚ) : Fin n → ℚ :=
  A.det⁻¹ • (A.adjugate).mulVec b

/-- Modelled from the spec: the unsymmetric collocation solve with noise
regularization (`probfindiff/collocation.py` is not under `src/`; `src/` only
has the `pnfindiff.collocation.unsymmetric` variant, which performs the same
solve with no regularization term).  Forms `K_reg = K + noise_variance • 1`,
solves `K_reg * weights = LK`, and returns
`(weights, LLK - weights ⬝ LK)`. -/
def unsymmetric {n : ℕ} (K : Matrix (Fin n) (Fin n) ℚ) (LK : Fin n → ℚ)
    (LLK noise_variance : ℚ) : (Fin n → ℚ) × ℚ :=
  let w := solveLin (K + noise_variance • 1) LK
  (w, LLK - Matrix.dotProduct w LK)

/-- Modelled from the spec: `collocation.non_uniform_nd` (not under `src/`).
Builds the Gram data `K[i,j] = k(xs_i, xs_j)`, `LK[j] = Lk(x, xs_j)`,
`LLK = LLk(x, x)` from the kernel triple `ks = (k, Lk, LLk)` and runs the
unsymmetric collocation solve. -/
def non_uniform_nd (x : ℚ) (xs : List ℚ) (ks : BivPoly × BivPoly × BivPoly)
    (noise_variance : ℚ) : (Fin xs.length → ℚ) × ℚ :=
  unsymmetric (Matrix.of fun i j => evalB ks.1 (xs.get i) (xs.get j))
    (fun j => evalB ks.2.1 x (xs.get j)) (evalB ks.2.2 x x) noise_variance

/-- Translation of the namedtuple `FiniteDifferenceScheme` of
`probfindiff._toplevel_api`. -/
structure FiniteDifferenceScheme where
  weights : List ℚ
  covs_marginal : ℚ
  order_derivative : ℕ
  deriving DecidableEq

/-- Dot product of two rational lists, the contraction performed by
`jnp.einsum("...k,...k->...", weights, fx)` on one-dimensional inputs. -/
def dotL (a b : List ℚ) : ℚ :=
  (List.zipWith (fun x y => x * y) a b).sum

/-- Translation of `probfindiff._toplevel_api.differentiate`: contract the
scheme's weights with the samples and pass the stored marginal covariance
through unchanged. -/
def differentiate (fx : List ℚ) (scheme : FiniteDifferenceScheme) : ℚ × ℚ :=
  (dotL scheme.weights fx, scheme.covs_marginal)

/-- Translation of `probfindiff._toplevel_api.differentiate_along_axis` for a
two-dimensional sample array and `axis = 0`, with `jnp.apply_along_axis`
modelled denotationally: the one-dimensional slices along axis 0 are the
columns, the scheme is applied to each column, and the pair-valued output is
collected leaf-wise. -/
def differentiate_along_axis0 (fx : List (List ℚ)) (scheme : FiniteDifferenceScheme) :
    List ℚ × List ℚ :=
  let m := (fx.headD []).length
  ((List.range m).map fun j => (differentiate (fx.map fun row => row.getD j 0) scheme).1,
   (List.range m).map fun j => (differentiate (fx.map fun row => row.getD j 0) scheme).2)

/-- Translation of `probfindiff._toplevel_api.from_grid`.  The kernel argument
is optional; `none` selects the default polynomial kernel sized to the grid.
The query point is re-centered at the origin (`x = jnp.zeros_like(xs[0])`).
The derived kernel triple is `(k, L@0 k, L@1 (L@0 k))` as the spec prescribes
for `kernel.differentiate`, with `L = reduce(compose, [derivative] * m)`; the
result is `none` exactly when that `reduce` call raises on the empty list. -/
def from_grid (xs : List ℚ) (order_derivative : ℕ) (kernel : Option BivPoly)
    (noise_variance : ℚ) : Option FiniteDifferenceScheme :=
  (mkL order_derivative).map fun L =>
    let k := kernel.getD (_default_kernel xs.length)
    let wu := non_uniform_nd 0 xs (k, L 0 k, L 1 (L 0 k)) noise_variance
    ⟨List.ofFn wu.1, wu.2, order_derivative⟩

/-- Integer `arange`: the list `lo, lo+1, ..., hi-1`. -/
def arangeZ (lo hi : ℤ) : List ℤ :=
  (List.range (hi - lo).toNat).map fun i : ℕ => lo + (i : ℤ)

/-- Translation of `probfindiff._toplevel_api.backward`: offsets
`-arange(order_derivative + order_method)`, scaled by `dx`, fed to
`from_grid`. -/
def backward (dx : ℚ) (order_derivative order_method : ℕ) (kernel : Option BivPoly)
    (noise_variance : ℚ) : Option FiniteDifferenceScheme × List ℚ :=
  let offset : List ℚ := (List.range (order_derivative + order_method)).map fun i : ℕ => -(i : ℚ)
  let grid := offset.map fun z : ℚ => z * dx
  (from_grid grid order_derivative kernel noise_variance, grid)

/-- Translation of `probfindiff._toplevel_api.forward`: offsets
`arange(order_derivative + order_method)`, scaled by `dx`. -/
def forward (dx : ℚ) (order_derivative order_method : ℕ) (kernel : Option BivPoly)
    (noise_variance : ℚ) : Option FiniteDifferenceScheme × List ℚ :=
  let offset : List ℚ := (List.range (order_derivative + order_method)).map fun i : ℕ => (i : ℚ)
  let grid := offset.map fun z : ℚ => z * dx
  (from_grid grid order_derivative kernel noise_variance, grid)

/-- Translation of `probfindiff._toplevel_api.central`, with the source's
floating-point floor divisions carried out exactly:
`num_central = (2 * ((order_derivative + 1.0) / 2.0) // 2) - 1 + order_method`
and `num_side = num_central // 2`. -/
def central (dx : ℚ) (order_derivative order_method : ℕ) (kernel : Option BivPoly)
    (noise_variance : ℚ) : Option FiniteDifferenceScheme × List ℚ :=
  let num_central : ℤ := ⌊(2 * (((order_derivative : ℚ) + 1) / 2)) / 2⌋ - 1 + order_method
  let num_side : ℤ := Int.fdiv num_central 2
  let offset : List ℤ := arangeZ (-num_side) (num_side + 1)
  let grid : List ℚ := offset.map fun z : ℤ => (z : ℚ) * dx
  (from_grid grid order_derivative kernel noise_variance, grid)

/-- Modelled from the spec: `probfindiff.stencil.multivariate`
(`probfindiff/stencil.py` is not under `src/`; only its caller and its test
are).  The grid of shape `(p, p, n)` whose `i`-th element places the
one-dimensional offsets along coordinate axis `i` and is zero elsewhere. -/
def stencil.multivariate (xs_1d : List ℚ) (p : ℕ) : List (List (List ℚ)) :=
  (List.range p).map fun i =>
    (List.range p).map fun j =>
      if j = i then xs_1d else List.replicate xs_1d.length 0

/-- Translation of `probfindiff._toplevel_api.multivariate`: returns the
one-dimensional scheme unchanged together with the replicated grid. -/
def multivariate (scheme_1d : FiniteDifferenceScheme) (xs_1d : List ℚ) (p : ℕ) :
    FiniteDifferenceScheme × List (List (List ℚ)) :=
  (scheme_1d, stencil.multivariate xs_1d p)

/-- Translation of `pnfindiff.coefficients._neighbours`, with the external
KDTree query abstracted as a parameter `query` returning, for the point set
and the neighbour count, each point's neighbour indices; the neighbour
coordinates are gathered from the point set at those indices. -/
def coefficients._neighbours (query : List ℚ → ℕ → List (List ℕ)) (num : ℕ)
    (xs : List ℚ) : List (List ℚ) × List (List ℕ) :=
  let indices := query xs num
  (indices.map fun row => row.map fun j => xs.getD j 0, indices)

/-- Translation of the batched coefficient evaluation of
`pnfindiff.coefficients.derivative_higher`
(`jax.vmap(partial(collocation.non_uniform_nd, ks=ks))`), with `jax.vmap`
modelled denotationally as the element-wise map over the batch dimension. -/
def coeff_fun_batched (ks : BivPoly × BivPoly × BivPoly) (noise_variance : ℚ)
    (xqs : List ℚ) (nbrs : List (List ℚ)) : List (List ℚ × ℚ) :=
  List.zipWith
    (fun x nb =>
      let wu := non_uniform_nd x nb ks noise_variance
      (List.ofFn wu.1, wu.2))
    xqs nbrs

/-- Modelled from the spec: the sequential per-item evaluation that the
batched evaluation must be observably equivalent to — each batch element is
evaluated on its own inputs, one after the other. -/
def coeffs_sequential (ks : BivPoly × BivPoly × BivPoly) (noise_variance : ℚ) :
    List ℚ → List (List ℚ) → List (List ℚ × ℚ)
  | [], _ => []
  | _ :: _, [] => []
  | x :: xt, nb :: nt =>
      (let wu := non_uniform_nd x nb ks noise_variance
       (List.ofFn wu.1, wu.2)) :: coeffs_sequential ks noise_variance xt nt

/-- Translation of `pnfindiff.coefficients.derivative_higher`.  The base
kernel (the exponentiated quadratic from the missing `utils/kernel_zoo`
module) enters only through the derived kernel triple and is taken as a
parameter; the KDTree query is the abstract parameter of
`coefficients._neighbours`; the noise variance of the underlying collocation
solve is threaded through explicitly. -/
def coefficients.derivative_higher (k : BivPoly) (query : List ℚ → ℕ → List (List ℕ))
    (noise_variance : ℚ) (xs : List ℚ) (deriv num : ℕ) :
    Option ((List (List ℚ) × List ℚ) × List (List ℕ)) :=
  let nb := coefficients._neighbours query num xs
  (mkL deriv).map fun L =>
    let ks := (k, L 0 k, L 1 (L 0 k))
    let coeffs := coeff_fun_batched ks noise_variance xs nb.1
    ((coeffs.map Prod.fst, coeffs.map Prod.snd), nb.2)

/-- Translation of `pnfindiff.coefficients.derivative`, whose whole body is
the call `derivative_higher(xs=xs, deriv=1, num=num)`. -/
def coefficients.derivative (k : BivPoly) (query : List ℚ → ℕ → List (List ℕ))
    (noise_variance : ℚ) (xs : List ℚ) (num : ℕ) :
    Option ((List (List ℚ) × List ℚ) × List (List ℕ)) :=
  coefficients.derivative_higher k query noise_variance xs 1 num

/-!
Helper lemmas: properties of the embedded linear solve, pointwise evaluation
lemmas for list-indexed data, and the concrete evaluation of the default
central scheme.
-/

lemma solveLin_mulVec {n : ℕ} (A : Matrix (Fin n) (Fin n) ℚ) (b : Fin n → ℚ)
    (hd : A.det ≠ 0) : A.mulVec (solveLin A b) = b := by
  unfold solveLin
  rw [Matrix.mulVec_smul, Matrix.mulVec_mulVec, Matrix.mul_adjugate,
    Matrix.smul_mulVec_assoc, Matrix.one_mulVec, smul_smul, inv_mul_cancel₀ hd, one_smul]

lemma solveLin_unique {n : ℕ} (A : Matrix (Fin n) (Fin n) ℚ) (b w : Fin n → ℚ)
    (hd : A.det ≠ 0) (hw : A.mulVec w = b) : solveLin A b = w := by
  unfold solveLin
  rw [← hw, Matrix.mulVec_mulVec, Matrix.adjugate_mul, Matrix.smul_mulVec_assoc,
    Matrix.one_mulVec, smul_smul, inv_mul_cancel₀ hd, one_smul]

lemma unsymmetric_eq {n : ℕ} (K : Matrix (Fin n) (Fin n) ℚ) (LK : Fin n → ℚ)
    (LLK nv : ℚ) (w : Fin n → ℚ) (hd : (K + nv • 1).det ≠ 0)
    (hw : (K + nv • 1).mulVec w = LK) :
    unsymmetric K LK LLK nv = (w, LLK - Matrix.dotProduct w LK) := by
  unfold unsymmetric
  rw [solveLin_unique _ _ _ hd hw]

lemma central_fst (dx : ℚ) (d a : ℕ) (kernel : Option BivPoly) (nv : ℚ) :
    (central dx d a kernel nv).1 = from_grid (central dx d a kernel nv).2 d kernel nv := rfl

lemma central_112_grid (kernel : Option BivPoly) (nv : ℚ) :
    (central 1 1 2 kernel nv).2 = [-1, 0, 1] := by
  simp only [central]
  rw [show (⌊2 * ((((1:ℕ):ℚ) + 1) / 2) / 2⌋ : ℤ) = 1 from by norm_num]
  rw [show ((1:ℤ) - 1 + ((2:ℕ):ℤ)) = 2 from by norm_num]
  rw [show Int.fdiv 2 2 = 1 from rfl]
  rw [show arangeZ (-1) (1+1) = [-1, 0, 1] from rfl]
  norm_num

lemma from_grid_112 (nv : ℚ) :
    from_grid [-1, 0, 1] 1 none nv
      = some ⟨List.ofFn (non_uniform_nd 0 [-1, 0, 1]
            (_default_kernel 3, derivX (_default_kernel 3),
              derivY (derivX (_default_kernel 3))) nv).1,
          (non_uniform_nd 0 [-1, 0, 1]
            (_default_kernel 3, derivX (_default_kernel 3),
              derivY (derivX (_default_kernel 3))) nv).2, 1⟩ := rfl

lemma default_kernel_3 : _default_kernel 3 = [[1], [0, 1], [0, 0, 1]] := rfl

lemma non_uniform_112 (nv : ℚ) :
    non_uniform_nd 0 [-1, 0, 1]
        (_default_kernel 3, derivX (_default_kernel 3),
          derivY (derivX (_default_kernel 3))) nv
      = unsymmetric !![(3:ℚ),1,1;1,1,1;1,1,3] ![(-1:ℚ),0,1] 1 nv := by
  unfold non_uniform_nd
  rw [show (Matrix.of fun i j =>
        evalB (_default_kernel 3, derivX (_default_kernel 3),
          derivY (derivX (_default_kernel 3))).1
          (List.get [-1, 0, 1] i) (List.get [-1, 0, 1] j)) = !![(3:ℚ),1,1;1,1,1;1,1,3] from by
    ext i j
    fin_cases i <;> fin_cases j <;>
      norm_num [default_kernel_3, evalB, evalList, Matrix.of_apply]]
  rw [show (fun j => evalB (_default_kernel 3, derivX (_default_kernel 3),
        derivY (derivX (_default_kernel 3))).2.1 0 (List.get [-1, 0, 1] j))
      = ![(-1:ℚ),0,1] from by
    funext j
    fin_cases j <;>
      norm_num [default_kernel_3, derivX, derivList, evalB, evalList,
        List.range_succ, List.zipWith_cons_cons]]
  rw [show evalB (_default_kernel 3, derivX (_default_kernel 3),
        derivY (derivX (_default_kernel 3))).2.2 0 0 = 1 from by
    norm_num [default_kernel_3, derivX, derivY, derivList, evalB, evalList,
      List.range_succ, List.zipWith_cons_cons]]

lemma unsym_zero :
    unsymmetric !![(3:ℚ),1,1;1,1,1;1,1,3] ![(-1:ℚ),0,1] 1 0
      = (![-(1:ℚ)/2, 0, 1/2], 0) := by
  rw [unsymmetric_eq _ _ _ _ ![-(1:ℚ)/2, 0, 1/2]]
  · norm_num [Matrix.dotProduct, Fin.sum_univ_three]
  · norm_num [Matrix.det_fin_three, Matrix.vecHead, Matrix.vecTail]
  · funext i
    fin_cases i <;>
      norm_num [Matrix.mulVec, Matrix.dotProduct, Fin.sum_univ_three, Matrix.one_apply]

lemma unsym_eps :
    unsymmetric !![(3:ℚ),1,1;1,1,1;1,1,3] ![(-1:ℚ),0,1] 1 (1 / 10 ^ 14)
      = (![-((10 ^ 14 : ℚ) / (2 * 10 ^ 14 + 1)), 0, (10 ^ 14 : ℚ) / (2 * 10 ^ 14 + 1)],
          1 / (2 * 10 ^ 14 + 1)) := by
  have hKreg : !![(3:ℚ),1,1;1,1,1;1,1,3] + (1 / 10 ^ 14 : ℚ) • 1
      = !![(3:ℚ) + 1/10^14,1,1;1,1 + 1/10^14,1;1,1,3 + 1/10^14] := by
    ext i j
    fin_cases i <;> fin_cases j <;>
      norm_num [Matrix.one_apply, Fin.ext_iff]
  rw [unsymmetric_eq _ _ _ _
      ![-((10 ^ 14 : ℚ) / (2 * 10 ^ 14 + 1)), 0, (10 ^ 14 : ℚ) / (2 * 10 ^ 14 + 1)]]
  · norm_num [Matrix.dotProduct, Fin.sum_univ_three]
  · rw [hKreg]
    norm_num [Matrix.det_fin_three, Matrix.vecHead, Matrix.vecTail]
  · rw [hKreg]
    funext i
    fin_cases i <;>
      norm_num [Matrix.mulVec, Matrix.dotProduct, Fin.sum_univ_three]

lemma central_112_weights_eps :
    ((central 1 1 2 none (1 / 10 ^ 14)).1.map FiniteDifferenceScheme.weights)
      = some [-((10 ^ 14 : ℚ) / (2 * 10 ^ 14 + 1)), 0, (10 ^ 14 : ℚ) / (2 * 10 ^ 14 + 1)] := by
  rw [central_fst, central_112_grid, from_grid_112, non_uniform_112, unsym_eps]
  rfl

lemma central_112_weights_zero :
    ((central 1 1 2 none 0).1.map FiniteDifferenceScheme.weights)
      = some [-(1:ℚ)/2, 0, 1/2] := by
  rw [central_fst, central_112_grid, from_grid_112, non_uniform_112, unsym_zero]
  rfl

lemma dotL_eq_sum : ∀ (n : ℕ) (a b : List ℚ), a.length = n → b.length = n →
    dotL a b = ∑ i : Fin n, a.getD i 0 * b.getD i 0 := by
  intro n
  induction n with
  | zero =>
      intro a b ha hb
      rw [List.length_eq_zero] at ha hb
      subst ha; subst hb
      simp [dotL]
  | succ n ih =>
      intro a b ha hb
      match a, b with
      | x :: xt, y :: yt =>
        simp only [List.length_cons, Nat.succ.injEq] at ha hb
        rw [show dotL (x :: xt) (y :: yt) = x * y + dotL xt yt from by
          simp [dotL]]
        rw [Fin.sum_univ_succ]
        simp only [Fin.val_zero, Fin.val_succ, List.getD_cons_zero, List.getD_cons_succ]
        rw [ih xt yt ha hb]

lemma getD_double_map (f : ℕ → ℚ) (g : ℚ → ℚ) (n i : ℕ) (hi : i < n) :
    (((List.range n).map f).map g).getD i 0 = g (f i) := by
  rw [List.getD_eq_getElem _ _ (by simpa using hi)]
  simp

lemma getD_range_map {α : Type} [Inhabited α] (f : ℕ → α) (n i : ℕ) (hi : i < n) (d : α) :
    (((List.range n).map f)).getD i d = f i := by
  rw [List.getD_eq_getElem _ _ (by simpa using hi)]
  simp

/-!
The claims.
-/

/-- Claim C1: given an `n × n` Gram matrix `K`, a length-`n` vector `LK`, a
scalar `LLK` and `noise_variance ≥ 0`, the collocation solver regularizes
`K_reg = K + noise_variance • 1` before the solve, returns weights solving
`K_reg * weights = LK` (whenever `K_reg` is invertible, the regime in which a
linear solve is defined), and returns `uncertainty_base = LLK - weights ⬝ LK`. -/
theorem unsymmetric_collocation_solve {n : ℕ} (K : Matrix (Fin n) (Fin n) ℚ)
    (LK : Fin n → ℚ) (LLK noise_variance : ℚ) (hnv : 0 ≤ noise_variance)
    (hreg : (K + noise_variance • 1).det ≠ 0) :
    (K + noise_variance • 1).mulVec (unsymmetric K LK LLK noise_variance).1 = LK ∧
    (unsymmetric K LK LLK noise_variance).2
      = LLK - Matrix.dotProduct (unsymmetric K LK LLK noise_variance).1 LK :=
  ⟨solveLin_mulVec _ _ hreg, rfl⟩

/-- Witness for C1 at `K = [[2]]`, `LK = [3]`, `LLK = 5`, `noise_variance = 1`. -/
theorem unsymmetric_collocation_solve_witness :
    (!![(2:ℚ)] + (1:ℚ) • 1).mulVec (unsymmetric !![(2:ℚ)] ![3] 5 1).1 = ![3] ∧
    (unsymmetric !![(2:ℚ)] ![3] 5 1).2
      = 5 - Matrix.dotProduct (unsymmetric !![(2:ℚ)] ![3] 5 1).1 ![3] :=
  unsymmetric_collocation_solve !![(2:ℚ)] ![3] 5 1 (by norm_num)
    (by norm_num [Matrix.det_fin_one, Matrix.add_apply, Matrix.smul_apply,
      Matrix.one_apply])

/-- Claim C2, counterexample: with the default noise variance `1e-14` the
central scheme at `dx = 1`, derivative order 1, accuracy order 2 and the
default kernel does not return the weight vector `[-0.5, 0, 0.5]` exactly. -/
theorem central_default_weights_counterexample :
    ((central 1 1 2 none (1 / 10 ^ 14)).1.map FiniteDifferenceScheme.weights)
      ≠ some [-(1:ℚ)/2, 0, 1/2] := by
  rw [central_112_weights_eps]
  intro h
  rw [Option.some_inj] at h
  obtain ⟨h1, -⟩ := List.cons_eq_cons.mp h
  norm_num at h1

/-- Claim C2, amended: the central scheme at `dx = 1`, derivative order 1,
accuracy order 2 and the default kernel returns the stencil `[-1, 0, 1]`; with
the default noise variance `ε = 1e-14` its weights are
`[-1/(2+ε), 0, 1/(2+ε)]` (equal to `[-0.5, 0, 0.5]` only up to the noise
regularization), and with `noise_variance = 0` they are exactly
`[-0.5, 0, 0.5]`. -/
theorem central_default_scheme_exact :
    (central 1 1 2 none (1 / 10 ^ 14)).2 = [-1, 0, 1] ∧
    ((central 1 1 2 none (1 / 10 ^ 14)).1.map FiniteDifferenceScheme.weights)
      = some [-((10 ^ 14 : ℚ) / (2 * 10 ^ 14 + 1)), 0, (10 ^ 14 : ℚ) / (2 * 10 ^ 14 + 1)] ∧
    (central 1 1 2 none 0).2 = [-1, 0, 1] ∧
    ((central 1 1 2 none 0).1.map FiniteDifferenceScheme.weights)
      = some [-(1:ℚ)/2, 0, 1/2] :=
  ⟨central_112_grid none (1 / 10 ^ 14), central_112_weights_eps,
    central_112_grid none 0, central_112_weights_zero⟩

/-- Claim C3: applying a scheme to samples aligned with the stencil returns
the dot product of the scheme's weights with the samples, together with the
stored uncertainty base unchanged; the uncertainty component never depends on
the sample values. -/
theorem differentiate_applies_scheme (n : ℕ) (scheme : FiniteDifferenceScheme)
    (fx : List ℚ) (hw : scheme.weights.length = n) (hf : fx.length = n) :
    differentiate fx scheme
      = (∑ i : Fin n, scheme.weights.getD i 0 * fx.getD i 0, scheme.covs_marginal) ∧
    ∀ gx : List ℚ, (differentiate gx scheme).2 = scheme.covs_marginal := by
  refine ⟨?_, fun gx => rfl⟩
  unfold differentiate
  rw [dotL_eq_sum n _ _ hw hf]

/-- Witness for C3 at the scheme `([1, 2], 5, 1)` and samples `[3, 4]`. -/
theorem differentiate_applies_scheme_witness :
    differentiate [3, 4] ⟨[1, 2], 5, 1⟩
      = (∑ i : Fin 2, ([1, 2] : List ℚ).getD i 0 * ([3, 4] : List ℚ).getD i 0, 5) ∧
    ∀ gx : List ℚ, (differentiate gx ⟨[1, 2], 5, 1⟩).2 = 5 :=
  differentiate_applies_scheme 2 ⟨[1, 2], 5, 1⟩ [3, 4] rfl rfl

/-- Claim C4 (code bug): the operator construction
`functools.reduce(autodiff.compose, [autodiff.derivative] * m)` fails on
`m = 0` (reduce of an empty iterable with no initial value), so scheme
construction with `order_derivative = 0` fails instead of using the
undifferentiated kernel. -/
theorem order_derivative_zero_fails :
    mkL 0 = none ∧
    from_grid [-1, 0, 1] 0 none (1 / 10 ^ 14) = none ∧
    ∀ (k : BivPoly) (query : List ℚ → ℕ → List (List ℕ)) (nv : ℚ)
      (xs : List ℚ) (num : ℕ),
      coefficients.derivative_higher k query nv xs 0 num = none :=
  ⟨rfl, rfl, fun _ _ _ _ _ => rfl⟩

/-- Claim C5: the backward constructor returns the grid of offsets
`0, -1, ..., -(order+acc-1)` scaled by `dx`, and the forward constructor the
offsets `0, 1, ..., (order+acc-1)` scaled by `dx`. -/
theorem backward_forward_offset_grids (dx : ℚ) (d a : ℕ)
    (kernel : Option BivPoly) (nv : ℚ) :
    (backward dx d a kernel nv).2.length = d + a ∧
    (forward dx d a kernel nv).2.length = d + a ∧
    ∀ i, i < d + a →
      (backward dx d a kernel nv).2.getD i 0 = -(i : ℚ) * dx ∧
      (forward dx d a kernel nv).2.getD i 0 = (i : ℚ) * dx := by
  refine ⟨by simp [backward], by simp [forward], fun i hi => ⟨?_, ?_⟩⟩
  · simp only [backward]
    rw [getD_double_map _ _ _ _ hi]
  · simp only [forward]
    rw [getD_double_map _ _ _ _ hi]

/-- Witness for C5 at `dx = 2`, derivative order 1, accuracy order 2,
offset index 1. -/
theorem backward_forward_offset_grids_witness :
    (backward 2 1 2 none 0).2.length = 1 + 2 ∧
    (backward 2 1 2 none 0).2.getD 1 0 = -((1 : ℕ) : ℚ) * 2 ∧
    (forward 2 1 2 none 0).2.getD 1 0 = ((1 : ℕ) : ℚ) * 2 :=
  ⟨(backward_forward_offset_grids 2 1 2 none 0).1,
    ((backward_forward_offset_grids 2 1 2 none 0).2.2 1 (by norm_num)).1,
    ((backward_forward_offset_grids 2 1 2 none 0).2.2 1 (by norm_num)).2⟩

/-- Claim C6: the multivariate extension leaves the 1-d scheme (in particular
its weights) unchanged and produces a grid of shape `(p, p, n)` whose entry
`(i, j, m)` is the `m`-th 1-d offset when `j = i` and zero otherwise. -/
theorem multivariate_embeds_axes (s : FiniteDifferenceScheme) (xs : List ℚ) (p : ℕ) :
    (multivariate s xs p).1 = s ∧ (multivariate s xs p).1.weights = s.weights ∧
    (multivariate s xs p).2.length = p ∧
    ∀ i, i < p → ((multivariate s xs p).2.getD i []).length = p ∧
      ∀ j, j < p → (((multivariate s xs p).2.getD i []).getD j []).length = xs.length ∧
        ∀ m, m < xs.length →
          ((((multivariate s xs p).2.getD i []).getD j []).getD m 0)
            = if i = j then xs.getD m 0 else 0 := by
  refine ⟨rfl, rfl, by simp [multivariate, stencil.multivariate], fun i hi => ?_⟩
  simp only [multivariate, stencil.multivariate]
  rw [getD_range_map _ _ _ hi]
  refine ⟨by simp, fun j hj => ?_⟩
  rw [getD_range_map _ _ _ hj]
  by_cases h : j = i
  · subst h
    simp
  · rw [if_neg h]
    refine ⟨by simp, fun m hm => ?_⟩
    rw [if_neg (Ne.symm h), List.getD_eq_getElem _ _ (by simpa using hm)]
    simp

/-- Witness for C6 at the scheme `([1], 2, 1)`, stencil `[-1, 0, 1]`, input
dimension 2, entry `(0, 1, 2)`. -/
theorem multivariate_embeds_axes_witness :
    ((((multivariate ⟨[1], 2, 1⟩ [-1, 0, 1] 2).2.getD 0 []).getD 1 []).getD 2 0)
      = if 0 = 1 then ([-1, 0, 1] : List ℚ).getD 2 0 else 0 :=
  (((multivariate_embeds_axes ⟨[1], 2, 1⟩ [-1, 0, 1] 2).2.2.2 0 (by norm_num)).2
    1 (by norm_num)).2 2 (by decide)

/-- Claim C8: applying a scheme along axis 0 of an `(n, m)` sample array
produces an `m`-length estimate vector whose `j`-th entry is the scheme
applied to the `j`-th column, with the uncertainty broadcast unchanged. -/
theorem differentiate_along_axis0_columns (s : FiniteDifferenceScheme)
    (fx : List (List ℚ)) (m : ℕ) (hm : (fx.headD []).length = m)
    (hrect : ∀ row ∈ fx, row.length = m) :
    (differentiate_along_axis0 fx s).1.length = m ∧
    (differentiate_along_axis0 fx s).2.length = m ∧
    ∀ j, j < m →
      (differentiate_along_axis0 fx s).1.getD j 0
          = (differentiate (fx.map fun row => row.getD j 0) s).1 ∧
      (differentiate_along_axis0 fx s).2.getD j 0 = s.covs_marginal := by
  unfold differentiate_along_axis0
  rw [hm]
  refine ⟨by simp, by simp, fun j hj => ⟨?_, ?_⟩⟩
  · rw [getD_range_map _ _ _ hj]
  · rw [getD_range_map _ _ _ hj]
    rfl

/-- Witness for C8 at the scheme `([1, 2], 7, 1)` and the `(2, 3)` sample
array `[[1, 2, 3], [4, 5, 6]]`, column 1. -/
theorem differentiate_along_axis0_columns_witness :
    (differentiate_along_axis0 [[1, 2, 3], [4, 5, 6]] ⟨[1, 2], 7, 1⟩).1.getD 1 0
        = (differentiate (([[1, 2, 3], [4, 5, 6]] : List (List ℚ)).map
            fun row => row.getD 1 0) ⟨[1, 2], 7, 1⟩).1 ∧
    (differentiate_along_axis0 [[1, 2, 3], [4, 5, 6]] ⟨[1, 2], 7, 1⟩).2.getD 1 0 = 7 :=
  (differentiate_along_axis0_columns ⟨[1, 2], 7, 1⟩ [[1, 2, 3], [4, 5, 6]] 3 rfl
    (by
      intro row hr
      simp only [List.mem_cons, List.not_mem_nil, or_false] at hr
      rcases hr with h | h <;> subst h <;> rfl)).2.2 1 (by norm_num)

/-- Claim C9: the batched Gram/coefficient evaluation equals the sequential
per-item evaluation, and each batch element's result is exactly the per-item
construction on that element's own inputs. -/
theorem coeff_fun_batched_spec (ks : BivPoly × BivPoly × BivPoly) (nv : ℚ)
    (xqs : List ℚ) (nbrs : List (List ℚ)) :
    coeff_fun_batched ks nv xqs nbrs = coeffs_sequential ks nv xqs nbrs ∧
    ∀ i, i < xqs.length → i < nbrs.length →
      (coeff_fun_batched ks nv xqs nbrs).getD i ([], 0)
        = (List.ofFn (non_uniform_nd (xqs.getD i 0) (nbrs.getD i []) ks nv).1,
            (non_uniform_nd (xqs.getD i 0) (nbrs.getD i []) ks nv).2) := by
  constructor
  · induction xqs generalizing nbrs with
    | nil => cases nbrs <;> rfl
    | cons x xt ih =>
        cases nbrs with
        | nil => rfl
        | cons nb nt =>
            simp only [coeff_fun_batched, List.zipWith_cons_cons, coeffs_sequential]
            exact congrArg _ (ih nt)
  · induction xqs generalizing nbrs with
    | nil => intro i hi; simp at hi
    | cons x xt ih =>
        intro i hi hn
        cases nbrs with
        | nil => simp at hn
        | cons nb nt =>
            cases i with
            | zero => rfl
            | succ i =>
                simp only [coeff_fun_batched, List.zipWith_cons_cons, List.getD_cons_succ,
                  List.length_cons] at *
                exact ih nt i (Nat.lt_of_succ_lt_succ hi) (Nat.lt_of_succ_lt_succ hn)

/-- Witness for C9 at the kernel triple `([[1]], [[1]], [[1]])`, query points
`[0, 1]`, neighbour sets `[[0], [1]]`, batch index 1. -/
theorem coeff_fun_batched_spec_witness :
    coeff_fun_batched ([[1]], [[1]], [[1]]) 0 [0, 1] [[0], [1]]
        = coeffs_sequential ([[1]], [[1]], [[1]]) 0 [0, 1] [[0], [1]] ∧
    (coeff_fun_batched ([[1]], [[1]], [[1]]) 0 [0, 1] [[0], [1]]).getD 1 ([], 0)
      = (List.ofFn (non_uniform_nd (([0, 1] : List ℚ).getD 1 0)
            (([[0], [1]] : List (List ℚ)).getD 1 []) ([[1]], [[1]], [[1]]) 0).1,
          (non_uniform_nd (([0, 1] : List ℚ).getD 1 0)
            (([[0], [1]] : List (List ℚ)).getD 1 []) ([[1]], [[1]], [[1]]) 0).2) :=
  ⟨(coeff_fun_batched_spec ([[1]], [[1]], [[1]]) 0 [0, 1] [[0], [1]]).1,
    (coeff_fun_batched_spec ([[1]], [[1]], [[1]]) 0 [0, 1] [[0], [1]]).2 1
      (by decide) (by decide)⟩

/-- Claim C10: the first-order convenience entry point `derivative(xs, num)`
returns exactly the result of `derivative_higher(xs, deriv=1, num)`, for every
point set, neighbour count, kernel, neighbour query and noise variance. -/
theorem derivative_is_first_order_higher (k : BivPoly)
    (query : List ℚ → ℕ → List (List ℕ)) (nv : ℚ) (xs : List ℚ) (num : ℕ) :
    coefficients.derivative k query nv xs num
      = coefficients.derivative_higher k query nv xs 1 num := rfl

end Probfindiff
